import Mathlib

/-!
# trt-daemon: framed transport, request cycle, event loop, latency statistics

A shallow embedding of `src/daemon.cpp`, `src/client.cpp` and
`TRTServer::infer` (`src/trt_server.cpp`).

* The kernel is an environment.  Every system call the code makes consumes the
  next entry of a script of results; a script that ends while the code is still
  inside a loop models a call that has not returned (the result is `none`).
* `send`/`recv` return at most the count they were offered.  Scripts that obey
  this are called conforming; under it `left -= k` never wraps, so `size_t`
  values are plain naturals.
* `double` quantities are elements of an ordered field (exact arithmetic).
-/

namespace TrtDaemon

/-! ## Framed transport (`write_all`, `read_full`) -/

abbrev Byte := Fin 256

/-- Linux value of `EINTR` from `<errno.h>`. -/
def EINTR : Nat := 4

/-- One return of `::send(fd, p, left, MSG_NOSIGNAL)`: `took k` is a return value
`k ≥ 0`, `fail e` is a return value `< 0` with `errno = e`. -/
inductive SendRet where
  | took (k : Nat)
  | fail (errno : Nat)
  deriving DecidableEq, Repr

/-- One return of `::recv(fd, p, left, 0)`: `got bs` is the return value
`k = bs.length ≥ 0` with the bytes `bs` stored at `p` (`got []` is `k = 0`, the
peer has closed), `fail e` is a return value `< 0` with `errno = e`. -/
inductive RecvRet where
  | got (bs : List Byte)
  | fail (errno : Nat)
  deriving DecidableEq, Repr

/-- What a run of `write_all` did.  `ret` is the returned `int` (`none`: the
script ended inside the loop).  `offered` lists, per `send` call, the bytes
`p[0 .. left)` passed to it; `wire` is what the transport accepted, in order. -/
structure WriteOut where
  ret : Option Int
  offered : List (List Byte)
  wire : List Byte
  deriving DecidableEq, Repr

/-- Record one more `send` call in front of the rest of the run. -/
def WriteOut.after (offer acc : List Byte) (w : WriteOut) : WriteOut :=
  { ret := w.ret, offered := offer :: w.offered, wire := acc ++ w.wire }

/-- The loop `while (left) { k = send(fd, p, left); ... }` of `write_all`, with
`p` kept as an offset into `buf`. -/
def write_loop (buf : List Byte) : List SendRet → Nat → Nat → WriteOut
  | _, _, 0 => { ret := some 0, offered := [], wire := [] }
  | [], p, left + 1 =>
      { ret := none, offered := [(buf.drop p).take (left + 1)], wire := [] }
  | SendRet.fail e :: rs, p, left + 1 =>
      if e = EINTR then
        (write_loop buf rs p (left + 1)).after ((buf.drop p).take (left + 1)) []
      else
        { ret := some (-1), offered := [(buf.drop p).take (left + 1)], wire := [] }
  | SendRet.took k :: rs, p, left + 1 =>
      (write_loop buf rs (p + k) (left + 1 - k)).after
        ((buf.drop p).take (left + 1)) (((buf.drop p).take (left + 1)).take k)

/-- Model of `write_all(fd, buf, n)`: send exactly `n` bytes (0 = ok, -1 = error). -/
def write_all (buf : List Byte) (n : Nat) (rs : List SendRet) : WriteOut :=
  write_loop buf rs 0 n

/-- What a run of `read_full` did: the returned `int` (`none`: the script ended
inside the loop) and the buffer afterwards. -/
structure ReadOut where
  ret : Option Int
  buf : List Byte
  deriving DecidableEq, Repr

/-- The kernel stores `bs` at offset `p` of the buffer. -/
def store (buf : List Byte) (p : Nat) (bs : List Byte) : List Byte :=
  buf.take p ++ bs ++ buf.drop (p + bs.length)

/-- The loop `while (left) { k = recv(fd, p, left, 0); ... }` of `read_full`,
with `p` kept as an offset into `buf`. -/
def read_loop : List RecvRet → List Byte → Nat → Nat → ReadOut
  | _, buf, _, 0 => { ret := some 0, buf := buf }
  | [], buf, _, _ + 1 => { ret := none, buf := buf }
  | RecvRet.got bs :: rs, buf, p, left + 1 =>
      if bs.length = 0 then { ret := some (-1), buf := buf }
      else read_loop rs (store buf p bs) (p + bs.length) (left + 1 - bs.length)
  | RecvRet.fail e :: rs, buf, p, left + 1 =>
      if e = EINTR then read_loop rs buf p (left + 1)
      else { ret := some (-1), buf := buf }

/-- Model of `read_full(fd, buf, n)`: read exactly `n` bytes (0 = ok, -1 = error/EOF). -/
def read_full (rs : List RecvRet) (buf : List Byte) (n : Nat) : ReadOut :=
  read_loop rs buf 0 n

/-- Total number of bytes accepted by the sends of a script. -/
def accepted : List SendRet → Nat
  | [] => 0
  | SendRet.took k :: rs => k + accepted rs
  | SendRet.fail _ :: rs => accepted rs

/-- All bytes delivered by the receives of a script, in order. -/
def delivered : List RecvRet → List Byte
  | [] => []
  | RecvRet.got bs :: rs => bs ++ delivered rs
  | RecvRet.fail _ :: rs => delivered rs

/-- No `send` of the script fails with an `errno` other than `EINTR`. -/
def sendSoft : List SendRet → Bool
  | [] => true
  | SendRet.took _ :: rs => sendSoft rs
  | SendRet.fail e :: rs => decide (e = EINTR) && sendSoft rs

/-- Every `recv` of the script delivers at least one byte or fails with `EINTR`. -/
def recvSoft : List RecvRet → Bool
  | [] => true
  | RecvRet.got bs :: rs => decide (bs ≠ []) && recvSoft rs
  | RecvRet.fail e :: rs => decide (e = EINTR) && recvSoft rs

/-- The kernel contract for `send` along the run of the loop from `left`: a
call offered `left` bytes accepts at most `left`.  Entries after the loop has
returned are never consulted. -/
def sendConforms : Nat → List SendRet → Bool
  | 0, _ => true
  | _ + 1, [] => true
  | left + 1, SendRet.took k :: rs => decide (k ≤ left + 1) && sendConforms (left + 1 - k) rs
  | left + 1, SendRet.fail e :: rs => if e = EINTR then sendConforms (left + 1) rs else true

/-- The kernel contract for `recv` along the run of the loop from `left`: a
call asked for `left` bytes delivers at most `left`. -/
def recvConforms : Nat → List RecvRet → Bool
  | 0, _ => true
  | _ + 1, [] => true
  | left + 1, RecvRet.got bs :: rs =>
      if bs.length = 0 then true
      else decide (bs.length ≤ left + 1) && recvConforms (left + 1 - bs.length) rs
  | left + 1, RecvRet.fail e :: rs => if e = EINTR then recvConforms (left + 1) rs else true


/-! ## Latency statistics (`Stats`, and the client's timed loop) -/

/-- The aggregate `struct Stats` of the daemon.  `count` is a `uint64_t`; the
`double` fields live in an ordered field. -/
structure Stats (α : Type) where
  count : Nat
  sum : α
  sumsq : α
  minv : α
  maxv : α
  p95 : α

/-- The member initialisers `count{0}`, `sum{0}, sumsq{0}, minv{1e9}, maxv{0}`,
`p95{0}`. -/
def Stats.fresh {α : Type} [LinearOrderedField α] : Stats α :=
  { count := 0, sum := 0, sumsq := 0, minv := 1000000000, maxv := 0, p95 := 0 }

/-- Model of `Stats::add(double ms)`. -/
def Stats.add {α : Type} [LinearOrderedField α] (s : Stats α) (ms : α) : Stats α :=
  let alpha : α := 5 / 100
  { count := (s.count + 1) % 2 ^ 64
    sum := s.sum + ms
    sumsq := s.sumsq + ms * ms
    minv := if ms < s.minv then ms else s.minv
    maxv := if ms > s.maxv then ms else s.maxv
    p95 := if ms > s.p95 then (1 - alpha) * s.p95 + alpha * ms
           else (1 - alpha) * s.p95 + alpha * s.p95 }

/-- The locals and printed fields of `Stats::print`. -/
structure Metrics (α : Type) where
  n : Nat
  mean : α
  var : α
  stdv : α
  p95 : α
  minv : α
  maxv : α
  qps : α

/-- Model of `Stats::print() const`; `sqrt` stands for `std::sqrt`.  The result
holds the locals `mean`, `var`, `stdv` and the values written to `std::cout`. -/
def Stats.print {α : Type} [LinearOrderedField α] (sqrt : α → α) (s : Stats α) : Metrics α :=
  let mean : α := s.sum / ((max 1 s.count : Nat) : α)
  let var : α := s.sumsq / ((max 1 s.count : Nat) : α) - mean * mean
  let stdv : α := if var > 0 then sqrt var else 0
  { n := s.count, mean := mean, var := var, stdv := stdv, p95 := s.p95, minv := s.minv,
    maxv := s.maxv, qps := if mean > 0 then 1000 / mean else 0 }

/-- A fresh `Stats` after `add` was called on each sample in turn. -/
def Stats.addAll {α : Type} [LinearOrderedField α] (samples : List α) : Stats α :=
  samples.foldl Stats.add Stats.fresh

/-- The accumulators `sum, sumsq, minms, maxms` of the client's timed loop. -/
structure ClientAcc (α : Type) where
  sum : α
  sumsq : α
  minms : α
  maxms : α

/-- One pass of the client's timed loop body after `dt = ms_since(t0)`. -/
def ClientAcc.step {α : Type} [LinearOrderedField α] (a : ClientAcc α) (dt : α) : ClientAcc α :=
  { sum := a.sum + dt
    sumsq := a.sumsq + dt * dt
    minms := if dt < a.minms then dt else a.minms
    maxms := if dt > a.maxms then dt else a.maxms }

/-- What the client prints after the timed loop. -/
structure ClientReport (α : Type) where
  iters : Int
  mean : α
  var : α
  stdv : α
  minms : α
  maxms : α
  qps : α

/-- Model of the statistics of the client's `main` for a run in which every
`write_all`/`read_full` succeeds (otherwise `main` returns 2 before it reports):
`for (int i = 0; i < iters; i++)` with `dt i` the elapsed time of pass `i`,
then `mean`, `var`, `stdv`, `qps`. -/
def client_stats {α : Type} [LinearOrderedField α] (sqrt : α → α) (iters : Int)
    (dt : Nat → α) : ClientReport α :=
  let acc : ClientAcc α :=
    (List.range iters.toNat).foldl (fun a i => a.step (dt i))
      { sum := 0, sumsq := 0, minms := 1000000000, maxms := 0 }
  let mean : α := acc.sum / (iters : α)
  let var : α := acc.sumsq / (iters : α) - mean * mean
  let stdv : α := if var > 0 then sqrt var else 0
  { iters := iters, mean := mean, var := var, stdv := stdv, minms := acc.minms,
    maxms := acc.maxms, qps := if mean > 0 then 1000 / mean else 0 }

/-! ## Command line (`Config`, `parse_args`) -/

/-- The daemon's `struct Config` with its default member initialisers. -/
structure Config where
  engine : String := "model/resnet50_fp32.plan"
  sock : String := "/run/trt.sock"
  deriving DecidableEq, Repr

/-- Outcome of `parse_args`: it returns a `Config`, or it writes `err` to
`stderr` and calls `std::exit(status)`. -/
inductive Parsed where
  | cfg (c : Config)
  | exit (status : Int) (err : String)
  deriving DecidableEq, Repr

/-- The text of `fprintf(stderr, "Usage: %s [-e engine.plan] [-s /path/socket]\n", argv[0])`. -/
def usage (argv0 : String) : String :=
  "Usage: " ++ argv0 ++ " [-e engine.plan] [-s /path/socket]\n"

/-- The loop `for (int i = 1; i < argc; ++i)` of `parse_args` from index `i`
on, with `argc = argv.length`. -/
def parse_loop (argv : List String) (i : Nat) (cfg : Config) : Parsed :=
  if h : i < argv.length then
    let a := argv[i]
    if (a == "-e" || a == "--engine") && decide (i + 1 < argv.length) then
      parse_loop argv (i + 2) { cfg with engine := argv.getD (i + 1) "" }
    else if (a == "-s" || a == "--sock") && decide (i + 1 < argv.length) then
      parse_loop argv (i + 2) { cfg with sock := argv.getD (i + 1) "" }
    else if a == "-h" || a == "--help" then
      Parsed.exit 0 (usage (argv.getD 0 ""))
    else
      parse_loop argv (i + 1) cfg
  else
    Parsed.cfg cfg
termination_by argv.length - i

/-- Model of `parse_args(argc, argv)`. -/
def parse_args (argv : List String) : Parsed :=
  parse_loop argv 1 {}

/-- The reference scan of the specification over the tokens after `argv[0]`:
`-e` or `--engine` (`-s` or `--sock`) followed by another token takes that token
as the engine (socket) path and the scan goes on behind it; `-h` or `--help` that
was not taken as a value prints the usage and exits with status 0; any other token is
skipped. -/
def scan_ref (argv0 : String) : List String → Config → Parsed
  | [], cfg => Parsed.cfg cfg
  | [a], cfg =>
      if a = "-h" ∨ a = "--help" then Parsed.exit 0 (usage argv0) else Parsed.cfg cfg
  | a :: v :: rest, cfg =>
      if a = "-e" ∨ a = "--engine" then scan_ref argv0 rest { cfg with engine := v }
      else if a = "-s" ∨ a = "--sock" then scan_ref argv0 rest { cfg with sock := v }
      else if a = "-h" ∨ a = "--help" then Parsed.exit 0 (usage argv0)
      else scan_ref argv0 (v :: rest) cfg

/-- The six spellings `parse_args` recognises. -/
def recognised (a : String) : Bool :=
  a == "-e" || a == "--engine" || a == "-s" || a == "--sock" || a == "-h" || a == "--help"

/-! ## Compute resource (`TRTServer::infer`) -/

/-- The part of `TRTServer` that `infer` uses: the byte sizes of the two
bindings and the execution context.  `enqueueV2 x` is the content of the device
output buffer after the context ran on device input `x`, or `none` when
`ctx_->enqueueV2` returns `false`. -/
structure TRTServer where
  inputBytes : Nat
  outputBytes : Nat
  enqueueV2 : List Byte → Option (List Byte)

/-- Model of `TRTServer::infer(hInput, hOutput)`: copy `inputB_.bytes` bytes
host to device, enqueue, copy `outputB_.bytes` bytes device to host.  The result
is the host output buffer afterwards, or the `std::runtime_error` thrown. -/
def TRTServer.infer (trt : TRTServer) (hInput hOutput : List Byte) : Except String (List Byte) :=
  match trt.enqueueV2 (hInput.take trt.inputBytes) with
  | none => Except.error "enqueueV2 failed"
  | some dOutput => Except.ok (store hOutput 0 (dOutput.take trt.outputBytes))

/-! ## Request cycle and event loop (`main` of the daemon) -/

/-- How one request cycle ended. -/
inductive CycleStatus where
  | readFailed
  | inferFailed
  | writeFailed
  | served
  | stuck
  deriving DecidableEq, Repr

/-- Result of one request cycle: how it ended, the two pinned buffers
afterwards, the bytes handed to `write_all` (if it was reached) and the bytes
the transport accepted from it. -/
structure CycleOut where
  status : CycleStatus
  hIn : List Byte
  hOut : List Byte
  handed : Option (List Byte)
  wire : List Byte
  deriving DecidableEq, Repr

/-- The request cycle of `main`: `read_full(fd, hIn.p, hIn.n)`, then
`trt.infer(hIn.p, hOut.p)`, then `write_all(fd, hOut.p, hOut.n)`; `hIn.n` and
`hOut.n` are the lengths of the pinned buffers.  `stuck` is a cycle whose
`recv` or `send` has not returned. -/
def request_cycle (trt : TRTServer) (hIn hOut : List Byte) (recvs : List RecvRet)
    (sends : List SendRet) : CycleOut :=
  let r := read_full recvs hIn hIn.length
  match r.ret with
  | none => { status := CycleStatus.stuck, hIn := r.buf, hOut := hOut, handed := none, wire := [] }
  | some rc =>
    if rc ≠ 0 then
      { status := CycleStatus.readFailed, hIn := r.buf, hOut := hOut, handed := none, wire := [] }
    else
      match trt.infer r.buf hOut with
      | Except.error _ =>
        { status := CycleStatus.inferFailed, hIn := r.buf, hOut := hOut, handed := none,
          wire := [] }
      | Except.ok out =>
        let w := write_all out out.length sends
        match w.ret with
        | none =>
          { status := CycleStatus.stuck, hIn := r.buf, hOut := out, handed := some out,
            wire := w.wire }
        | some wc =>
          if wc ≠ 0 then
            { status := CycleStatus.writeFailed, hIn := r.buf, hOut := out, handed := some out,
              wire := w.wire }
          else
            { status := CycleStatus.served, hIn := r.buf, hOut := out, handed := some out,
              wire := w.wire }

/-- The bytes a system call reads from `s.c_str()`: the UTF-8 bytes of `s` up
to the first NUL. -/
def c_str (s : String) : List Nat :=
  ((s.data.flatMap String.utf8EncodeChar).map UInt8.toNat).takeWhile (fun b => b ≠ 0)

/-- Linux value of `sizeof(addr.sun_path)` for `sockaddr_un`. -/
def SUN_PATH_SIZE : Nat := 108

/-- The name in `addr.sun_path` after
`std::strncpy(addr.sun_path, sockPath.c_str(), sizeof(addr.sun_path)-1)` into the
zeroed `addr`: at most the first 107 bytes of the path. -/
def sun_path (sockPath : String) : List Nat :=
  (c_str sockPath).take (SUN_PATH_SIZE - 1)

/-- Effect of `make_server(sockPath)` on the socket files, on the path where it
returns: `::unlink(sockPath.c_str())` removes a stale entry of that name, then
`bind` creates the socket file named by `addr.sun_path` (an empty name creates no
file). -/
def make_server_paths (sockPath : String) (fs : List (List Nat)) : List (List Nat) :=
  if sun_path sockPath = [] then fs.filter (fun x => x ≠ c_str sockPath)
  else sun_path sockPath :: fs.filter (fun x => x ≠ c_str sockPath)

def EPOLLIN : Nat := 1
def EPOLLERR : Nat := 8
def EPOLLHUP : Nat := 16

/-- One entry of the `events` array filled by `epoll_wait`, together with what
the environment does while the entry is handled: the value `accept4` returns
(used for the listening socket), the results of the `recv` and `send` calls of
the request cycle and the elapsed time `ms` measured for it. -/
structure EpollEvent where
  fd : Int
  events : Nat
  accept4 : Int
  recvs : List RecvRet
  sends : List SendRet
  ms : ℚ

/-- State of the daemon process while `main` runs: the values fixed at start-up,
the descriptors open in the process, the interest list of the epoll instance,
the socket files present in the file system (by name, as bytes), the flag
`gStop`, the pinned
buffers, the `static Stats S`, and the replies sent so far (descriptor and
bytes the transport accepted, newest first). -/
structure Daemon where
  trt : TRTServer
  sock : String
  sfd : Int
  ep : Int
  fds : List Int
  interest : List Int
  paths : List (List Nat)
  gStop : Bool
  hIn : List Byte
  hOut : List Byte
  S : Stats ℚ
  replies : List (Int × List Byte)

/-- Effect of `::close(fd)`: the descriptor is no longer open and the kernel
drops it from the interest list. -/
def Daemon.close (d : Daemon) (fd : Int) : Daemon :=
  { d with fds := d.fds.filter (fun x => x ≠ fd), interest := d.interest.filter (fun x => x ≠ fd) }

/-- Effect of the handler `on_signal`. -/
def on_signal (d : Daemon) : Daemon :=
  { d with gStop := true }

/-- State of `main` when it enters the event loop, on the path where start-up
succeeded: `make_server` returned `sfd` and created the socket file named by
`addr.sun_path`, `epoll_create1` returned `ep`, `sfd` was added to the interest
list, and the pinned buffers have `trt.input().bytes` and `trt.output().bytes`
bytes. -/
def startup (cfg : Config) (trt : TRTServer) (sfd ep : Int) (fill : Byte) : Daemon :=
  { trt := trt, sock := cfg.sock, sfd := sfd, ep := ep, fds := [ep, sfd], interest := [sfd],
    paths := make_server_paths cfg.sock [], gStop := false,
    hIn := List.replicate trt.inputBytes fill,
    hOut := List.replicate trt.outputBytes fill, S := Stats.fresh, replies := [] }

/-- Body of `for (int i = 0; i < n; i++)` for one entry of `events`; `none` when
the request cycle is stuck in `recv` or `send`.  `S.print()` is `const` and only
writes to `std::cout`, so it leaves the state as it is. -/
def handle (d : Daemon) (e : EpollEvent) : Option Daemon :=
  if e.events &&& (EPOLLHUP ||| EPOLLERR) ≠ 0 then some (d.close e.fd)
  else if e.fd = d.sfd then
    if e.accept4 < 0 then some d
    else some { d with fds := e.accept4 :: d.fds, interest := e.accept4 :: d.interest }
  else
    let c := request_cycle d.trt d.hIn d.hOut e.recvs e.sends
    match c.status with
    | CycleStatus.stuck => none
    | CycleStatus.readFailed => some ({ d with hIn := c.hIn, hOut := c.hOut }.close e.fd)
    | CycleStatus.inferFailed => some ({ d with hIn := c.hIn, hOut := c.hOut }.close e.fd)
    | CycleStatus.writeFailed => some ({ d with hIn := c.hIn, hOut := c.hOut }.close e.fd)
    | CycleStatus.served =>
      some { d with hIn := c.hIn, hOut := c.hOut, S := d.S.add e.ms,
                    replies := (e.fd, c.wire) :: d.replies }

/-- The whole `for` loop over the entries returned by one `epoll_wait`. -/
def process : Daemon → List EpollEvent → Option Daemon
  | d, [] => some d
  | d, e :: es =>
    match handle d e with
    | none => none
    | some d1 => process d1 es

/-- Return of `::epoll_wait(ep, events, 16, 500)`: `fail e` is `n < 0` with
`errno = e`, `ready evs` is `n = evs.length ≥ 0` entries. -/
inductive WaitRet where
  | fail (errno : Nat)
  | ready (evs : List EpollEvent)

/-- One pass of `while (!gStop.load())`: whether a termination signal was
delivered since the flag was last read, and what `epoll_wait` returns. -/
structure Iter where
  signal : Bool
  wait : WaitRet

/-- Result of one pass of the `while` loop: go round again, leave the loop, or
the pass never finishes. -/
inductive Step where
  | next (d : Daemon)
  | leave (d : Daemon)
  | stuck

/-- One pass of `while (!gStop.load()) { ... }`. -/
def loop_iter (d : Daemon) (it : Iter) : Step :=
  let d1 := if it.signal then on_signal d else d
  if d1.gStop then Step.leave d1
  else
    match it.wait with
    | WaitRet.fail e => if e = EINTR then Step.next d1 else Step.leave d1
    | WaitRet.ready evs =>
      match process d1 evs with
      | none => Step.stuck
      | some d2 => Step.next d2

/-- How far `main` got on a script of loop passes. -/
inductive Run where
  | running (d : Daemon)
  | stuck
  | stopped (atExit : Daemon) (final : Daemon)

/-- The shutdown path: `::close(sfd); ::close(ep); ::unlink(cfg.sock.c_str())`. -/
def shutdown (d : Daemon) : Daemon :=
  let d1 := (d.close d.sfd).close d.ep
  { d1 with paths := d1.paths.filter (fun x => x ≠ c_str d1.sock) }

/-- The event loop of `main` followed by the shutdown path.  `stopped a f`: the
loop was left in state `a` and the shutdown path produced `f`; `running d`: the
script ended with the loop still going; `stuck`: a request cycle never
returned. -/
def daemon_main : Daemon → List Iter → Run
  | d, [] => Run.running d
  | d, it :: its =>
    match loop_iter d it with
    | Step.next d1 => daemon_main d1 its
    | Step.leave d1 => Run.stopped d1 (shutdown d1)
    | Step.stuck => Run.stuck

/-- The stub compute resource of the end-to-end scenario: four bytes in, four
bytes out, the output is the input reversed byte for byte. -/
def reverseStub : TRTServer :=
  { inputBytes := 4, outputBytes := 4, enqueueV2 := fun x => some x.reverse }

/-- Scenario for fault isolation and the end-to-end check: connections 5 and 6
are accepted; 5 sends two bytes of a frame and disconnects; 6 then sends
`01 02 03 04` in three pieces with an interrupted `recv`, and its reply is
accepted in two pieces. -/
def scenarioEvents : List EpollEvent :=
  [ { fd := 3, events := EPOLLIN, accept4 := 5, recvs := [], sends := [], ms := 0 },
    { fd := 3, events := EPOLLIN, accept4 := 6, recvs := [], sends := [], ms := 0 },
    { fd := 5, events := EPOLLIN, accept4 := 0,
      recvs := [RecvRet.got [9, 9], RecvRet.got []], sends := [], ms := 0 },
    { fd := 6, events := EPOLLIN, accept4 := 0,
      recvs := [RecvRet.got [1], RecvRet.fail EINTR, RecvRet.got [2, 3], RecvRet.got [4]],
      sends := [SendRet.took 1, SendRet.took 3], ms := 2 } ]

/-- Scenario for shutdown: connection 5 is accepted, then a termination signal
arrives. -/
def shutdownScript : List Iter :=
  [ { signal := false,
      wait := WaitRet.ready
        [{ fd := 3, events := EPOLLIN, accept4 := 5, recvs := [], sends := [], ms := 0 }] },
    { signal := true, wait := WaitRet.ready [] } ]

/-- State of the reversing-stub daemon (`sfd = 3`, `ep = 4`) with the client
connections 5 and 6 accepted and registered. -/
def twoClients : Daemon :=
  { startup {} reverseStub 3 4 0 with fds := [6, 5, 4, 3], interest := [6, 5, 3] }

/-- Connection 5 becomes readable, delivers two bytes of a four-byte frame and
then closes. -/
def truncatedEvent : EpollEvent :=
  { fd := 5, events := EPOLLIN, accept4 := 0,
    recvs := [RecvRet.got [9, 9], RecvRet.got []], sends := [], ms := 0 }

/-- A socket path of 108 bytes, one more than fits into `addr.sun_path`. -/
def longSock : String :=
  String.mk (List.replicate 108 'a')

/-- Arithmetic mean of a list of samples, as in the specification. -/
def meanRef {α : Type} [LinearOrderedField α] (xs : List α) : α :=
  xs.sum / (xs.length : α)

/-- Population variance `(1/n) * Σ (x_i - mean)^2`, as in the specification. -/
def popVarRef {α : Type} [LinearOrderedField α] (xs : List α) : α :=
  (xs.map (fun x => (x - meanRef xs) ^ 2)).sum / (xs.length : α)

/-! # Theorems -/

/-! ## Transport lemmas -/

theorem store_length (buf : List Byte) (p : Nat) (bs : List Byte)
    (h : p + bs.length ≤ buf.length) : (store buf p bs).length = buf.length := by
  simp [store]
  omega

theorem store_take (buf : List Byte) (p : Nat) (bs : List Byte) (h : p ≤ buf.length) :
    (store buf p bs).take (p + bs.length) = buf.take p ++ bs := by
  have hl : (buf.take p ++ bs).length = p + bs.length := by simp [Nat.min_eq_left h]
  unfold store
  rw [← hl, List.take_left]

theorem store_drop (buf : List Byte) (p : Nat) (bs : List Byte) (m : Nat)
    (h : p ≤ buf.length) (hm : p + bs.length ≤ m) : (store buf p bs).drop m = buf.drop m := by
  have hl : (buf.take p ++ bs).length = p + bs.length := by simp [Nat.min_eq_left h]
  obtain ⟨d, rfl⟩ : ∃ d, m = (buf.take p ++ bs).length + d := ⟨m - (p + bs.length), by omega⟩
  unfold store
  rw [List.drop_append, List.drop_drop, hl]

theorem write_loop_wire (buf : List Byte) (rs : List SendRet) :
    ∀ p left, (write_loop buf rs p left).ret = some 0 →
      (write_loop buf rs p left).wire = (buf.drop p).take left := by
  induction rs with
  | nil =>
    intro p left h
    cases left with
    | zero => simp [write_loop]
    | succ l => simp [write_loop] at h
  | cons r rs ih =>
    intro p left h
    cases left with
    | zero => simp [write_loop]
    | succ l =>
      cases r with
      | fail e =>
        by_cases he : e = EINTR
        · simp only [write_loop, he, if_true, WriteOut.after] at h ⊢
          simpa using ih p (l + 1) h
        · simp [write_loop, he] at h
      | took k =>
        simp only [write_loop, WriteOut.after] at h ⊢
        rw [ih _ _ h]
        rcases Nat.lt_or_ge (l + 1) k with hk | hk
        · have h0 : l + 1 - k = 0 := by omega
          rw [h0, List.take_take, Nat.min_eq_right (Nat.le_of_lt hk)]
          simp
        · rw [List.take_take, Nat.min_eq_left hk]
          have hs : l + 1 = k + (l + 1 - k) := by omega
          conv_rhs => rw [hs, List.take_add]
          rw [List.drop_drop]

theorem write_loop_ret_of_prefix (buf : List Byte) (pre : List SendRet) :
    ∀ (suf : List SendRet) (p left : Nat), sendSoft pre = true → accepted pre = left →
      (write_loop buf (pre ++ suf) p left).ret = some 0 := by
  induction pre with
  | nil =>
    intro suf p left _ h
    simp only [accepted] at h
    subst h
    simp [write_loop]
  | cons r pre ih =>
    intro suf p left hs ha
    cases left with
    | zero => simp [write_loop]
    | succ l =>
      cases r with
      | fail e =>
        simp only [sendSoft, Bool.and_eq_true, decide_eq_true_eq] at hs
        simp only [accepted] at ha
        simp only [List.cons_append, write_loop, hs.1, if_true, WriteOut.after]
        exact ih suf p (l + 1) hs.2 ha
      | took k =>
        simp only [sendSoft] at hs
        simp only [accepted] at ha
        simp only [List.cons_append, write_loop, WriteOut.after]
        exact ih suf (p + k) (l + 1 - k) hs (by omega)

theorem write_loop_prefix_of_ret (buf : List Byte) (rs : List SendRet) :
    ∀ (p left : Nat), sendConforms left rs = true →
      (write_loop buf rs p left).ret = some 0 →
      ∃ pre suf, rs = pre ++ suf ∧ sendSoft pre = true ∧ accepted pre = left := by
  induction rs with
  | nil =>
    intro p left _ h
    cases left with
    | zero => exact ⟨[], [], rfl, rfl, rfl⟩
    | succ l => simp [write_loop] at h
  | cons r rs ih =>
    intro p left hc h
    cases left with
    | zero => exact ⟨[], r :: rs, rfl, rfl, rfl⟩
    | succ l =>
      cases r with
      | fail e =>
        by_cases he : e = EINTR
        · simp only [write_loop, he, if_true, WriteOut.after] at h
          simp only [sendConforms, he, if_true] at hc
          obtain ⟨pre, suf, h1, h2, h3⟩ := ih p (l + 1) hc h
          exact ⟨SendRet.fail e :: pre, suf, by simp [h1], by simp [sendSoft, he, h2],
            by simpa [accepted] using h3⟩
        · simp [write_loop, he] at h
      | took k =>
        simp only [write_loop, WriteOut.after] at h
        simp only [sendConforms, Bool.and_eq_true, decide_eq_true_eq] at hc
        obtain ⟨pre, suf, h1, h2, h3⟩ := ih (p + k) (l + 1 - k) hc.2 h
        refine ⟨SendRet.took k :: pre, suf, by simp [h1], by simpa [sendSoft] using h2, ?_⟩
        simp only [accepted]
        omega

theorem write_loop_hard (buf : List Byte) (pre : List SendRet) :
    ∀ (e : Nat) (suf : List SendRet) (p left : Nat), sendSoft pre = true →
      accepted pre < left → e ≠ EINTR →
      (write_loop buf (pre ++ SendRet.fail e :: suf) p left).ret = some (-1) := by
  induction pre with
  | nil =>
    intro e suf p left _ ha he
    cases left with
    | zero => simp at ha
    | succ l => simp [write_loop, he]
  | cons r pre ih =>
    intro e suf p left hs ha he
    cases left with
    | zero => simp at ha
    | succ l =>
      cases r with
      | fail e1 =>
        simp only [sendSoft, Bool.and_eq_true, decide_eq_true_eq] at hs
        simp only [accepted] at ha
        simp only [List.cons_append, write_loop, hs.1, if_true, WriteOut.after]
        exact ih e suf p (l + 1) hs.2 ha he
      | took k =>
        simp only [sendSoft] at hs
        simp only [accepted] at ha
        simp only [List.cons_append, write_loop, WriteOut.after]
        exact ih e suf (p + k) (l + 1 - k) hs (by omega) he

theorem write_loop_offered (buf : List Byte) (rs : List SendRet) :
    ∀ (p left : Nat), sendConforms left rs = true →
      ∀ (i : Nat) (offer : List Byte), (write_loop buf rs p left).offered[i]? = some offer →
        offer = (buf.drop (p + accepted (rs.take i))).take (left - accepted (rs.take i)) := by
  induction rs with
  | nil =>
    intro p left _ i offer h
    cases left with
    | zero => simp [write_loop] at h
    | succ l =>
      cases i with
      | zero => simpa [write_loop, accepted, eq_comm] using h
      | succ j => simp [write_loop] at h
  | cons r rs ih =>
    intro p left hc i offer h
    cases left with
    | zero => simp [write_loop] at h
    | succ l =>
      cases r with
      | fail e =>
        by_cases he : e = EINTR
        · simp only [write_loop, he, if_true, WriteOut.after] at h
          simp only [sendConforms, he, if_true] at hc
          cases i with
          | zero => simpa [accepted, eq_comm] using h
          | succ j =>
            simp only [List.getElem?_cons_succ] at h
            simpa [accepted] using ih p (l + 1) hc j offer h
        · simp only [write_loop, he, if_false] at h
          cases i with
          | zero => simpa [accepted, eq_comm] using h
          | succ j => simp at h
      | took k =>
        simp only [write_loop, WriteOut.after] at h
        simp only [sendConforms, Bool.and_eq_true, decide_eq_true_eq] at hc
        cases i with
        | zero => simpa [accepted, eq_comm] using h
        | succ j =>
          simp only [List.getElem?_cons_succ] at h
          have := ih (p + k) (l + 1 - k) hc.2 j offer h
          rw [this]
          simp only [List.take_succ_cons, accepted]
          have e1 : l + 1 - k - accepted (rs.take j) = l + 1 - (k + accepted (rs.take j)) := by
            omega
          have e2 : p + k + accepted (rs.take j) = p + (k + accepted (rs.take j)) := by omega
          rw [e1, e2]

theorem read_loop_of_soft (rs : List RecvRet) :
    ∀ (buf : List Byte) (p left : Nat), recvSoft rs = true → (delivered rs).length = left →
      p + left ≤ buf.length →
      read_loop rs buf p left =
        { ret := some 0, buf := buf.take p ++ delivered rs ++ buf.drop (p + left) } := by
  induction rs with
  | nil =>
    intro buf p left _ hd _
    simp only [delivered, List.length_nil] at hd
    subst hd
    simp [read_loop, delivered]
  | cons r rs ih =>
    intro buf p left hs hd hb
    cases r with
    | fail e =>
      simp only [recvSoft, Bool.and_eq_true, decide_eq_true_eq] at hs
      simp only [delivered] at hd ⊢
      cases left with
      | zero =>
        have : delivered rs = [] := List.eq_nil_of_length_eq_zero hd
        simp [read_loop, this]
      | succ l =>
        simp only [read_loop, hs.1, if_true]
        exact ih buf p (l + 1) hs.2 hd hb
    | got bs =>
      simp only [recvSoft, Bool.and_eq_true, decide_eq_true_eq] at hs
      simp only [delivered, List.length_append] at hd ⊢
      have hbs : bs.length ≠ 0 := fun h => hs.1 (List.eq_nil_of_length_eq_zero h)
      cases left with
      | zero => omega
      | succ l =>
        simp only [read_loop, hbs, if_false]
        rw [ih (store buf p bs) (p + bs.length) (l + 1 - bs.length) hs.2 (by omega)
          (by rw [store_length buf p bs (by omega)]; omega)]
        rw [store_take buf p bs (by omega), store_drop buf p bs _ (by omega) (by omega)]
        have e : p + bs.length + (l + 1 - bs.length) = p + (l + 1) := by omega
        rw [e]
        simp

theorem read_loop_prefix_of_ret (rs : List RecvRet) :
    ∀ (buf : List Byte) (p left : Nat), recvConforms left rs = true → p + left ≤ buf.length →
      (read_loop rs buf p left).ret = some 0 →
      ∃ pre suf, rs = pre ++ suf ∧ recvSoft pre = true ∧ (delivered pre).length = left ∧
        (read_loop rs buf p left).buf = buf.take p ++ delivered pre ++ buf.drop (p + left) := by
  induction rs with
  | nil =>
    intro buf p left _ _ h
    cases left with
    | zero => exact ⟨[], [], rfl, rfl, rfl, by simp [read_loop, delivered]⟩
    | succ l => simp [read_loop] at h
  | cons r rs ih =>
    intro buf p left hc hb h
    cases left with
    | zero => exact ⟨[], r :: rs, rfl, rfl, rfl, by simp [read_loop, delivered]⟩
    | succ l =>
      cases r with
      | fail e =>
        by_cases he : e = EINTR
        · simp only [read_loop, he, if_true] at h ⊢
          simp only [recvConforms, he, if_true] at hc
          obtain ⟨pre, suf, h1, h2, h3, h4⟩ := ih buf p (l + 1) hc hb h
          exact ⟨RecvRet.fail EINTR :: pre, suf, by simp [h1], by simp [recvSoft, h2],
            by simpa [delivered] using h3, by simpa [delivered] using h4⟩
        · simp [read_loop, he] at h
      | got bs =>
        by_cases hbs : bs.length = 0
        · simp [read_loop, hbs] at h
        · simp only [read_loop, hbs, if_false] at h ⊢
          simp only [recvConforms, hbs, if_false, Bool.and_eq_true, decide_eq_true_eq] at hc
          obtain ⟨pre, suf, h1, h2, h3, h4⟩ :=
            ih (store buf p bs) (p + bs.length) (l + 1 - bs.length) hc.2
              (by rw [store_length buf p bs (by omega)]; omega) h
          have hne : bs ≠ [] := fun h0 => hbs (by simp [h0])
          refine ⟨RecvRet.got bs :: pre, suf, by simp [h1], by simp [recvSoft, h2, hne],
            by simp only [delivered, List.length_append]; omega, ?_⟩
          rw [h4, store_take buf p bs (by omega), store_drop buf p bs _ (by omega) (by omega)]
          have e : p + bs.length + (l + 1 - bs.length) = p + (l + 1) := by omega
          rw [e]
          simp [delivered]

theorem read_loop_stop (pre : List RecvRet) :
    ∀ (r : RecvRet) (suf : List RecvRet) (buf : List Byte) (p left : Nat),
      recvSoft pre = true → (delivered pre).length < left →
      (r = RecvRet.got [] ∨ ∃ e, e ≠ EINTR ∧ r = RecvRet.fail e) →
      (read_loop (pre ++ r :: suf) buf p left).ret = some (-1) := by
  induction pre with
  | nil =>
    intro r suf buf p left _ hd hr
    cases left with
    | zero => simp at hd
    | succ l =>
      rcases hr with rfl | ⟨e, he, rfl⟩
      · simp [read_loop]
      · simp [read_loop, he]
  | cons r0 pre ih =>
    intro r suf buf p left hs hd hr
    cases left with
    | zero => simp at hd
    | succ l =>
      cases r0 with
      | fail e0 =>
        simp only [recvSoft, Bool.and_eq_true, decide_eq_true_eq] at hs
        simp only [delivered] at hd
        simp only [List.cons_append, read_loop, hs.1, if_true]
        exact ih r suf buf p (l + 1) hs.2 hd hr
      | got bs =>
        simp only [recvSoft, Bool.and_eq_true, decide_eq_true_eq] at hs
        simp only [delivered, List.length_append] at hd
        have hbs : bs.length ≠ 0 := fun h => hs.1 (List.eq_nil_of_length_eq_zero h)
        simp only [List.cons_append, read_loop, hbs, if_false]
        exact ih r suf _ _ _ hs.2 (by omega) hr

/-! ## Framed transport: the claims -/

/-- C1: framing round trip.  For every length `n`, every buffer of `n` bytes and
every script of partial sends (any sizes, `EINTR` in between), if `write_all`
returns 0 and the receiver is handed the accepted stream split into non-empty
chunks in any way, again with `EINTR` failures in between, then `read_full`
returns 0 and the first `n` bytes of the destination are the bytes of the
source buffer in order; the destination beyond `n` is untouched. -/
theorem framing_round_trip (n : Nat) (buf dst : List Byte) (sends : List SendRet)
    (recvs : List RecvRet) (hbuf : buf.length = n) (hdst : n ≤ dst.length)
    (hw : (write_all buf n sends).ret = some 0)
    (hsoft : recvSoft recvs = true)
    (hstream : delivered recvs = (write_all buf n sends).wire) :
    (read_full recvs dst n).ret = some 0 ∧
      (read_full recvs dst n).buf.take n = buf ∧
      (read_full recvs dst n).buf.drop n = dst.drop n := by
  have hwire : (write_all buf n sends).wire = buf := by
    unfold write_all at hw ⊢
    rw [write_loop_wire buf sends 0 n hw]
    simp [← hbuf]
  have hlen : (delivered recvs).length = n := by rw [hstream, hwire, hbuf]
  have hr := read_loop_of_soft recvs dst 0 n hsoft hlen (by omega)
  unfold read_full
  rw [hr, hstream, hwire]
  simp [hbuf]

/-- Witness for C1: three bytes sent as 1 + 2 with an `EINTR` in between,
received one byte at a time with an `EINTR` in between. -/
theorem framing_round_trip_witness :
    (read_full [RecvRet.got [1], RecvRet.fail EINTR, RecvRet.got [2], RecvRet.got [3]]
        [0, 0, 0] 3).ret = some 0 ∧
      (read_full [RecvRet.got [1], RecvRet.fail EINTR, RecvRet.got [2], RecvRet.got [3]]
        [0, 0, 0] 3).buf.take 3 = [1, 2, 3] ∧
      (read_full [RecvRet.got [1], RecvRet.fail EINTR, RecvRet.got [2], RecvRet.got [3]]
        [0, 0, 0] 3).buf.drop 3 = List.drop 3 [0, 0, 0] :=
  framing_round_trip 3 [1, 2, 3] [0, 0, 0]
    [SendRet.took 1, SendRet.fail EINTR, SendRet.took 2]
    [RecvRet.got [1], RecvRet.fail EINTR, RecvRet.got [2], RecvRet.got [3]]
    (by decide) (by decide) (by decide) (by decide) (by decide)

/-- C2: `read_full` exactness and peer-close detection.  Into a buffer of at
least `n` bytes and under the kernel contract for `recv`:
(1) a return of 0 means a prefix of the receives, each delivering at least one
byte or failing with `EINTR`, delivered exactly `n` bytes, and these sit in
order at offsets `0 .. n` (the rest of the buffer is unchanged);
(2) a `recv` returning 0 before `n` bytes have arrived makes the result -1;
(3) an `EINTR` failure leaves offset and remaining count as they were and the
loop goes on with the next receive;
(4) a failure with any other `errno` before `n` bytes have arrived makes the
result -1. -/
theorem read_full_exact (n : Nat) (buf : List Byte) (rs pre suf : List RecvRet) (e : Nat)
    (b : List Byte) (p left : Nat) (hb : n ≤ buf.length) :
    (recvConforms n rs = true → (read_full rs buf n).ret = some 0 →
        ∃ used rest, rs = used ++ rest ∧ recvSoft used = true ∧
          (delivered used).length = n ∧
          (read_full rs buf n).buf = delivered used ++ buf.drop n) ∧
    (recvSoft pre = true → (delivered pre).length < n →
        (read_full (pre ++ RecvRet.got [] :: suf) buf n).ret = some (-1)) ∧
    (read_loop (RecvRet.fail EINTR :: rs) b p left = read_loop rs b p left) ∧
    (recvSoft pre = true → (delivered pre).length < n → e ≠ EINTR →
        (read_full (pre ++ RecvRet.fail e :: suf) buf n).ret = some (-1)) := by
  refine ⟨?_, ?_, ?_, ?_⟩
  · intro hc h0
    obtain ⟨used, rest, h1, h2, h3, h4⟩ :=
      read_loop_prefix_of_ret rs buf 0 n hc (by omega) h0
    exact ⟨used, rest, h1, h2, h3, by simpa [read_full] using h4⟩
  · intro hs hd
    exact read_loop_stop pre _ suf buf 0 n hs hd (Or.inl rfl)
  · cases left with
    | zero => simp [read_loop]
    | succ l => simp [read_loop]
  · intro hs hd he
    exact read_loop_stop pre _ suf buf 0 n hs hd (Or.inr ⟨e, he, rfl⟩)

/-- Witness for C2: a two-byte frame whose peer closes after one byte. -/
theorem read_full_exact_witness :
    (2 ≤ ([0, 0] : List Byte).length) ∧
      (read_full ([RecvRet.got [7]] ++ RecvRet.got [] :: []) [0, 0] 2).ret = some (-1) :=
  ⟨by decide,
    (read_full_exact 2 [0, 0] [] [RecvRet.got [7]] [] 0 [] 0 0 (by decide)).2.1
      (by decide) (by decide)⟩

/-- C3: `write_all` exactness.  Under the kernel contract for `send`
(`0 ≤ k ≤ remaining`):
(1) the result is 0 exactly when a prefix of the sends has no failure other
than `EINTR` and its accepted counts add up to `n`;
(2) the `i`-th `send` call is offered the first `n` bytes of the buffer minus
what the earlier calls accepted;
(3) after an `EINTR` failure the loop goes on from the same offset and
remaining count, having made one call with exactly that suffix;
(4) a failure with any other `errno` before `n` bytes were accepted makes the
result -1. -/
theorem write_all_exact (n : Nat) (buf : List Byte) (rs pre suf : List SendRet) (e : Nat)
    (p left i : Nat) (offer : List Byte) (hc : sendConforms n rs = true) :
    ((write_all buf n rs).ret = some 0 ↔
        ∃ used rest, rs = used ++ rest ∧ sendSoft used = true ∧ accepted used = n) ∧
    ((write_all buf n rs).offered[i]? = some offer →
        offer = (buf.take n).drop (accepted (rs.take i))) ∧
    (left ≠ 0 → write_loop buf (SendRet.fail EINTR :: rs) p left =
        (write_loop buf rs p left).after ((buf.drop p).take left) []) ∧
    (sendSoft pre = true → accepted pre < n → e ≠ EINTR →
        (write_all buf n (pre ++ SendRet.fail e :: suf)).ret = some (-1)) := by
  refine ⟨⟨?_, ?_⟩, ?_, ?_, ?_⟩
  · intro h
    exact write_loop_prefix_of_ret buf rs 0 n hc h
  · rintro ⟨used, rest, rfl, h2, h3⟩
    exact write_loop_ret_of_prefix buf used rest 0 n h2 h3
  · intro h
    have := write_loop_offered buf rs 0 n hc i offer h
    rw [this, List.drop_take]
    simp
  · intro hl
    cases left with
    | zero => exact absurd rfl hl
    | succ l => simp [write_loop]
  · intro hs ha he
    exact write_loop_hard buf pre e suf 0 n hs ha he

/-- Witness for C3: four bytes accepted as 1 + 0 + 3 with an `EINTR` in between. -/
theorem write_all_exact_witness :
    sendConforms 4 [SendRet.took 1, SendRet.fail EINTR, SendRet.took 0, SendRet.took 3] = true ∧
      (write_all [1, 2, 3, 4] 4
        [SendRet.took 1, SendRet.fail EINTR, SendRet.took 0, SendRet.took 3]).ret = some 0 :=
  ⟨by decide,
    (write_all_exact 4 [1, 2, 3, 4]
      [SendRet.took 1, SendRet.fail EINTR, SendRet.took 0, SendRet.took 3] [] [] 0 0 0 0 []
      (by decide)).1.2
      ⟨[SendRet.took 1, SendRet.fail EINTR, SendRet.took 0, SendRet.took 3], [], by simp,
        by decide, by decide⟩⟩

/-! ## Request cycle -/

theorem delivered_append (xs ys : List RecvRet) :
    delivered (xs ++ ys) = delivered xs ++ delivered ys := by
  induction xs with
  | nil => simp [delivered]
  | cons r xs ih => cases r <;> simp [delivered, ih]

/-- C4: request-cycle correctness and statelessness.  Whatever the pinned
buffers held before the cycle (their sizes being those of the bindings), if
`read_full` returns 0 on a conforming script, the frame is the first
`inputBytes` bytes off the wire, and the compute resource maps that frame to
`y` of `outputBytes` bytes, then the buffer handed to `write_all` is exactly
`y`, and when `write_all` returns 0 the transport accepted exactly `y`.  In the
scenario with the reversing stub and four-byte frames, after connection 5 left
a truncated frame behind, connection 6 sending `01 02 03 04` is answered
`04 03 02 01`. -/
theorem request_cycle_correct (trt : TRTServer) (hIn hOut : List Byte) (recvs : List RecvRet)
    (sends : List SendRet) (y : List Byte)
    (hin : hIn.length = trt.inputBytes) (hout : hOut.length = trt.outputBytes)
    (hc : recvConforms trt.inputBytes recvs = true)
    (hr : (read_full recvs hIn hIn.length).ret = some 0)
    (hy : trt.enqueueV2 ((delivered recvs).take trt.inputBytes) = some y)
    (hylen : y.length = trt.outputBytes) :
    (request_cycle trt hIn hOut recvs sends).handed = some y ∧
    ((write_all y y.length sends).ret = some 0 →
      (request_cycle trt hIn hOut recvs sends).status = CycleStatus.served ∧
      (request_cycle trt hIn hOut recvs sends).wire = y) ∧
    ((process (startup {} reverseStub 3 4 0) scenarioEvents).map (fun d => d.replies) =
      some [(6, [4, 3, 2, 1])]) := by
  obtain ⟨used, rest, h1, _, h3, h4⟩ :=
    read_loop_prefix_of_ret recvs hIn 0 hIn.length (by rw [hin]; exact hc) (by omega) hr
  have hframe : ((read_full recvs hIn hIn.length).buf).take trt.inputBytes =
      (delivered recvs).take trt.inputBytes := by
    have h5 : (read_full recvs hIn hIn.length).buf = delivered used := by
      unfold read_full
      rw [h4]
      simp
    rw [h5, h1, delivered_append, ← hin, ← h3, List.take_left, List.take_length]
  have hinf : trt.infer (read_full recvs hIn hIn.length).buf hOut = Except.ok y := by
    unfold TRTServer.infer
    rw [hframe, hy]
    have : List.take trt.outputBytes y = y := by rw [← hylen, List.take_length]
    simp only [this, store]
    have : List.drop (0 + y.length) hOut = [] := by
      apply List.drop_eq_nil_of_le
      omega
    rw [this]
    simp
  have hwire : (write_all y y.length sends).ret = some 0 →
      (write_all y y.length sends).wire = y := by
    intro h
    unfold write_all at h ⊢
    rw [write_loop_wire y sends 0 y.length h]
    simp
  refine ⟨?_, ?_, by rfl⟩
  · unfold request_cycle
    simp only [hr, hinf]
    cases hw : (write_all y y.length sends).ret with
    | none => simp
    | some wc => by_cases h0 : wc = 0 <;> simp [h0]
  · intro hw
    unfold request_cycle
    simp only [hr, hinf, hw]
    simp [hwire hw]

/-- Witness for C4: the stale buffer `09 09 00 00`, the frame `01 02 03 04`
arriving in pieces, the reversing stub. -/
theorem request_cycle_correct_witness :
    (request_cycle reverseStub [9, 9, 0, 0] [7, 7, 7, 7]
        [RecvRet.got [1], RecvRet.fail EINTR, RecvRet.got [2, 3], RecvRet.got [4]]
        [SendRet.took 4]).handed = some [4, 3, 2, 1] :=
  (request_cycle_correct reverseStub [9, 9, 0, 0] [7, 7, 7, 7]
    [RecvRet.got [1], RecvRet.fail EINTR, RecvRet.got [2, 3], RecvRet.got [4]]
    [SendRet.took 4] [4, 3, 2, 1] (by decide) (by decide) (by decide) (by decide) (by decide)
    (by decide)).1

/-! ## Event loop -/

theorem loop_iter_leave_iff (d : Daemon) (it : Iter) :
    (∃ d1, loop_iter d it = Step.leave d1) ↔
      ((it.signal = true ∨ d.gStop = true) ∨ ∃ e, it.wait = WaitRet.fail e ∧ e ≠ EINTR) := by
  obtain ⟨sig, w⟩ := it
  cases sig with
  | true => simp [loop_iter, on_signal]
  | false =>
    by_cases hg : d.gStop = true
    · simp [loop_iter, hg]
    · cases w with
      | fail e => by_cases he : e = EINTR <;> simp [loop_iter, hg, he]
      | ready evs => cases hp : process d evs <;> simp [loop_iter, hg, hp]

/-- C5: per-connection fault containment.  For an event on a client
connection (not the listening socket, no hang-up or error bit), if `read_full`
returns non-zero, or `infer` throws, or `write_all` returns non-zero, the
handler returns with exactly that descriptor closed, no sample added to `S`, no
reply recorded, `gStop` as it was, every other open descriptor (the listening
socket among them) still open, and the `for` loop goes on with the next entry.
A pass of the `while` loop leaves the loop exactly when `gStop` is set (before
or by a signal) or `epoll_wait` fails with an `errno` other than `EINTR`. -/
theorem fault_containment (d : Daemon) (e : EpollEvent) (rest : List EpollEvent) (it : Iter)
    (hclient : e.fd ≠ d.sfd)
    (hready : e.events &&& (EPOLLHUP ||| EPOLLERR) = 0)
    (hfail :
      (∃ c, (read_full e.recvs d.hIn d.hIn.length).ret = some c ∧ c ≠ 0) ∨
      ((read_full e.recvs d.hIn d.hIn.length).ret = some 0 ∧
        ∃ msg, d.trt.infer (read_full e.recvs d.hIn d.hIn.length).buf d.hOut =
          Except.error msg) ∨
      ((read_full e.recvs d.hIn d.hIn.length).ret = some 0 ∧
        ∃ out c, d.trt.infer (read_full e.recvs d.hIn d.hIn.length).buf d.hOut =
            Except.ok out ∧
          (write_all out out.length e.sends).ret = some c ∧ c ≠ 0)) :
    (∃ d1, handle d e = some d1 ∧
      d1.fds = d.fds.filter (fun x => x ≠ e.fd) ∧
      d1.S = d.S ∧ d1.replies = d.replies ∧ d1.gStop = d.gStop ∧
      (∀ fd, fd ∈ d.fds → fd ≠ e.fd → fd ∈ d1.fds) ∧
      (d.sfd ∈ d.fds → d1.sfd ∈ d1.fds) ∧
      process d (e :: rest) = process d1 rest) ∧
    ((∃ d2, loop_iter d it = Step.leave d2) ↔
      ((it.signal = true ∨ d.gStop = true) ∨
        ∃ errno, it.wait = WaitRet.fail errno ∧ errno ≠ EINTR)) := by
  refine ⟨?_, loop_iter_leave_iff d it⟩
  have hst : ∃ c : CycleOut, request_cycle d.trt d.hIn d.hOut e.recvs e.sends = c ∧
      (c.status = CycleStatus.readFailed ∨ c.status = CycleStatus.inferFailed ∨
        c.status = CycleStatus.writeFailed) := by
    refine ⟨_, rfl, ?_⟩
    unfold request_cycle
    rcases hfail with ⟨c, h1, h2⟩ | ⟨h1, msg, h2⟩ | ⟨h1, out, c, h2, h3, h4⟩
    · simp [h1, h2]
    · simp [h1, h2]
    · simp [h1, h2, h3, h4]
  obtain ⟨c, hc, hs⟩ := hst
  have hh : handle d e = some ({ d with hIn := c.hIn, hOut := c.hOut }.close e.fd) := by
    unfold handle
    rw [if_neg (by simpa using hready), if_neg hclient]
    simp only [hc]
    rcases hs with h | h | h <;> simp [h]
  refine ⟨_, hh, rfl, rfl, rfl, rfl, ?_, ?_, ?_⟩
  · intro fd h1 h2
    simp [Daemon.close, h1, h2]
  · intro h1
    simp only [Daemon.close, List.mem_filter, decide_eq_true_eq]
    exact ⟨h1, fun h => hclient h.symm⟩
  · simp [process, hh]

/-- Witness for C5: connection 5 sends a truncated frame and closes while
connection 6 is open. -/
theorem fault_containment_witness :
    (∃ d1, handle twoClients truncatedEvent = some d1 ∧
      d1.fds = twoClients.fds.filter (fun x => x ≠ truncatedEvent.fd) ∧
      d1.S = twoClients.S ∧ d1.replies = twoClients.replies ∧ d1.gStop = twoClients.gStop ∧
      (∀ fd, fd ∈ twoClients.fds → fd ≠ truncatedEvent.fd → fd ∈ d1.fds) ∧
      (twoClients.sfd ∈ twoClients.fds → d1.sfd ∈ d1.fds) ∧
      process twoClients (truncatedEvent :: []) = process d1 []) :=
  (fault_containment twoClients truncatedEvent []
    { signal := false, wait := WaitRet.ready [] } (by decide) (by decide)
    (Or.inl ⟨-1, by decide, by decide⟩)).1

/-- The bound name is cut at 107 bytes: started with the 108-byte `longSock`,
the daemon binds the first 107 bytes, and the shutdown path, which unlinks the
full name, leaves that socket file in place. -/
theorem long_sock_file_stays :
    ∃ a f, daemon_main (startup { sock := longSock } reverseStub 3 4 0) shutdownScript =
        Run.stopped a f ∧
      f.paths = [List.replicate 107 97] :=
  ⟨_, _, rfl, by decide⟩

/-! ## Latency statistics -/

section StatsLemmas

variable {α : Type} [LinearOrderedField α]

theorem foldl_add_count (xs : List α) :
    ∀ s : Stats α, s.count < 2 ^ 64 →
      (xs.foldl Stats.add s).count = (s.count + xs.length) % 2 ^ 64 := by
  induction xs with
  | nil =>
    intro s hs
    simp only [List.foldl_nil, List.length_nil, Nat.add_zero]
    exact (Nat.mod_eq_of_lt hs).symm
  | cons x xs ih =>
    intro s _
    simp only [List.foldl_cons, List.length_cons]
    rw [ih (s.add x) (by simp only [Stats.add]; exact Nat.mod_lt _ (by norm_num))]
    simp only [Stats.add]
    omega

theorem foldl_add_sum (xs : List α) :
    ∀ s : Stats α, (xs.foldl Stats.add s).sum = s.sum + xs.sum ∧
      (xs.foldl Stats.add s).sumsq = s.sumsq + (xs.map (fun x => x * x)).sum := by
  induction xs with
  | nil => intro s; simp
  | cons x xs ih =>
    intro s
    simp only [List.foldl_cons, List.sum_cons, List.map_cons]
    rw [(ih (s.add x)).1, (ih (s.add x)).2]
    simp only [Stats.add]
    constructor <;> ring

theorem foldl_add_minv (xs : List α) :
    ∀ s : Stats α, (xs.foldl Stats.add s).minv ≤ s.minv ∧
      (∀ x ∈ xs, (xs.foldl Stats.add s).minv ≤ x) ∧
      ((xs.foldl Stats.add s).minv = s.minv ∨ (xs.foldl Stats.add s).minv ∈ xs) := by
  induction xs with
  | nil => intro s; simp
  | cons x xs ih =>
    intro s
    simp only [List.foldl_cons]
    obtain ⟨h1, h2, h3⟩ := ih (s.add x)
    have hm : (s.add x).minv = if x < s.minv then x else s.minv := rfl
    refine ⟨?_, ?_, ?_⟩
    · rw [hm] at h1
      split at h1
      · exact le_trans h1 (le_of_lt ‹_›)
      · exact h1
    · intro y hy
      rcases List.mem_cons.1 hy with rfl | hy
      · rw [hm] at h1
        split at h1
        · exact h1
        · exact le_trans h1 (not_lt.1 ‹_›)
      · exact h2 y hy
    · rcases h3 with h3 | h3
      · rw [h3, hm]
        split
        · right; simp
        · left; rfl
      · right; exact List.mem_cons_of_mem _ h3

theorem foldl_add_maxv (xs : List α) :
    ∀ s : Stats α, s.maxv ≤ (xs.foldl Stats.add s).maxv ∧
      (∀ x ∈ xs, x ≤ (xs.foldl Stats.add s).maxv) ∧
      ((xs.foldl Stats.add s).maxv = s.maxv ∨ (xs.foldl Stats.add s).maxv ∈ xs) := by
  induction xs with
  | nil => intro s; simp
  | cons x xs ih =>
    intro s
    simp only [List.foldl_cons]
    obtain ⟨h1, h2, h3⟩ := ih (s.add x)
    have hm : (s.add x).maxv = if x > s.maxv then x else s.maxv := rfl
    refine ⟨?_, ?_, ?_⟩
    · rw [hm] at h1
      split at h1
      · exact le_trans (le_of_lt ‹_›) h1
      · exact h1
    · intro y hy
      rcases List.mem_cons.1 hy with rfl | hy
      · rw [hm] at h1
        split at h1
        · exact h1
        · exact le_trans (not_lt.1 ‹_›) h1
      · exact h2 y hy
    · rcases h3 with h3 | h3
      · rw [h3, hm]
        split
        · right; simp
        · left; rfl
      · right; exact List.mem_cons_of_mem _ h3

theorem add_p95_mono (s : Stats α) (ms : α) : s.p95 ≤ (s.add ms).p95 := by
  simp only [Stats.add]
  split
  · linarith
  · linarith

theorem foldl_add_p95_mono (xs : List α) :
    ∀ s : Stats α, s.p95 ≤ (xs.foldl Stats.add s).p95 := by
  induction xs with
  | nil => intro s; simp
  | cons x xs ih =>
    intro s
    exact le_trans (add_p95_mono s x) (ih (s.add x))

theorem sum_sq_dev (xs : List α) (m : α) :
    (xs.map (fun x => (x - m) ^ 2)).sum =
      (xs.map (fun x => x * x)).sum - 2 * m * xs.sum + (xs.length : α) * m ^ 2 := by
  induction xs with
  | nil => simp
  | cons x xs ih =>
    simp only [List.map_cons, List.sum_cons, List.length_cons, Nat.cast_add, Nat.cast_one, ih]
    ring

theorem var_eq_popVar (xs : List α) (hne : xs ≠ []) :
    (xs.map (fun x => x * x)).sum / (xs.length : α) -
      xs.sum / (xs.length : α) * (xs.sum / (xs.length : α)) = popVarRef xs := by
  have hn : (xs.length : α) ≠ 0 := by
    have : xs.length ≠ 0 := fun h => hne (List.eq_nil_of_length_eq_zero h)
    exact_mod_cast this
  unfold popVarRef meanRef
  rw [sum_sq_dev]
  field_simp
  ring

theorem popVar_nonneg (xs : List α) : 0 ≤ popVarRef xs := by
  unfold popVarRef
  apply div_nonneg
  · apply List.sum_nonneg
    intro y hy
    obtain ⟨x, _, rfl⟩ := List.mem_map.1 hy
    exact sq_nonneg _
  · exact Nat.cast_nonneg _

theorem addAll_fields (samples : List α) (hne : samples ≠ []) (hlen : samples.length < 2 ^ 64) :
    (Stats.addAll samples).count = samples.length ∧
    (Stats.addAll samples).sum = samples.sum ∧
    (Stats.addAll samples).sumsq = (samples.map (fun x => x * x)).sum ∧
    ((max 1 (Stats.addAll samples).count : Nat) : α) = (samples.length : α) := by
  have hpos : 0 < samples.length := List.length_pos.2 hne
  have hc : (Stats.addAll samples).count = samples.length := by
    unfold Stats.addAll
    rw [foldl_add_count samples Stats.fresh (by simp [Stats.fresh])]
    simp only [Stats.fresh, Nat.zero_add]
    exact Nat.mod_eq_of_lt hlen
  refine ⟨hc, ?_, ?_, ?_⟩
  · unfold Stats.addAll
    rw [(foldl_add_sum samples Stats.fresh).1]
    simp [Stats.fresh]
  · unfold Stats.addAll
    rw [(foldl_add_sum samples Stats.fresh).2]
    simp [Stats.fresh]
  · rw [hc, Nat.max_eq_right hpos]

theorem client_fold (dt : Nat → α) (is : List Nat) :
    ∀ a : ClientAcc α,
      (is.foldl (fun a i => a.step (dt i)) a).sum = a.sum + (is.map dt).sum ∧
      (is.foldl (fun a i => a.step (dt i)) a).sumsq =
        a.sumsq + ((is.map dt).map (fun x => x * x)).sum := by
  induction is with
  | nil => intro a; simp
  | cons i is ih =>
    intro a
    simp only [List.foldl_cons, List.map_cons, List.sum_cons]
    rw [(ih (a.step (dt i))).1, (ih (a.step (dt i))).2]
    simp only [ClientAcc.step]
    constructor <;> ring

end StatsLemmas

/-- C6 (as the code has it): for every non-empty sequence of fewer than `2^64`
non-negative samples, after `add` on each sample from a fresh `Stats`, `count`
is the number of samples, `sum` their sum, `sumsq` the sum of their squares,
`maxv` the largest sample and the `mean` of `print` the arithmetic mean; `minv`
is the smallest sample when some sample is at most `1e9`, and stays at its
initial value `1e9` when every sample is larger.  For `[10, 20, 30]`:
`count = 3`, `mean = 20`, `min = 10`, `max = 30`. -/
theorem stats_aggregate {α : Type} [LinearOrderedField α] (sqrt : α → α) (samples : List α)
    (hne : samples ≠ []) (hpos : ∀ x ∈ samples, 0 ≤ x) (hlen : samples.length < 2 ^ 64) :
    (Stats.addAll samples).count = samples.length ∧
    (Stats.addAll samples).sum = samples.sum ∧
    (Stats.addAll samples).sumsq = (samples.map (fun x => x * x)).sum ∧
    ((∃ x ∈ samples, x ≤ 1000000000) →
      (Stats.addAll samples).minv ∈ samples ∧
        ∀ x ∈ samples, (Stats.addAll samples).minv ≤ x) ∧
    ((∀ x ∈ samples, 1000000000 < x) → (Stats.addAll samples).minv = 1000000000) ∧
    ((Stats.addAll samples).maxv ∈ samples ∧
      ∀ x ∈ samples, x ≤ (Stats.addAll samples).maxv) ∧
    ((Stats.addAll samples).print sqrt).mean = meanRef samples ∧
    ((Stats.addAll [(10 : ℚ), 20, 30]).count = 3 ∧
      ((Stats.addAll [(10 : ℚ), 20, 30]).print (fun _ => 0)).mean = 20 ∧
      (Stats.addAll [(10 : ℚ), 20, 30]).minv = 10 ∧
      (Stats.addAll [(10 : ℚ), 20, 30]).maxv = 30) := by
  obtain ⟨hc, hs, hq, hmax1⟩ := addAll_fields samples hne hlen
  obtain ⟨m1, m2, m3⟩ := foldl_add_minv samples (Stats.fresh : Stats α)
  obtain ⟨_, x2, x3⟩ := foldl_add_maxv samples (Stats.fresh : Stats α)
  have hfm : (Stats.fresh : Stats α).minv = 1000000000 := rfl
  have hfx : (Stats.fresh : Stats α).maxv = 0 := rfl
  rw [hfm] at m1 m3
  rw [hfx] at x3
  refine ⟨hc, hs, hq, ?_, ?_, ⟨?_, x2⟩, ?_, ?_⟩
  · rintro ⟨x, hx, hx1⟩
    refine ⟨?_, m2⟩
    rcases m3 with h | h
    · have h1 := m2 x hx
      have : (Stats.addAll samples).minv = x := by
        unfold Stats.addAll
        exact le_antisymm h1 (by rw [h]; exact hx1)
      rw [this]
      exact hx
    · exact h
  · intro hall
    rcases m3 with h | h
    · exact h
    · exact absurd (hall _ h) (not_lt.2 m1)
  · rcases x3 with h | h
    · obtain ⟨x, hx⟩ := List.exists_mem_of_ne_nil samples hne
      have h1 := x2 x hx
      have h2 := hpos x hx
      have : (Stats.addAll samples).maxv = x := by
        unfold Stats.addAll
        rw [h] at h1 ⊢
        exact le_antisymm h2 h1
      rw [this]
      exact hx
    · exact h
  · simp only [Stats.print, meanRef, hmax1, hs]
  · norm_num [Stats.addAll, Stats.add, Stats.fresh, Stats.print]

/-- Witness for C6: the samples `[10, 20, 30]`. -/
theorem stats_aggregate_witness :
    (Stats.addAll [(10 : ℚ), 20, 30]).count = [(10 : ℚ), 20, 30].length ∧
      (Stats.addAll [(10 : ℚ), 20, 30]).sum = [(10 : ℚ), 20, 30].sum :=
  have h := stats_aggregate (fun _ => (0 : ℚ)) [(10 : ℚ), 20, 30] (by simp)
    (by norm_num) (by norm_num)
  ⟨h.1, h.2.1⟩

/-- Counterexample to C6 as stated: for the single sample `2e9` ms the field
`minv` is `1e9`, which is not the smallest sample. -/
theorem stats_minv_sentinel :
    (Stats.addAll [(2000000000 : ℚ)]).minv = 1000000000 ∧
      (Stats.addAll [(2000000000 : ℚ)]).minv ∉ [(2000000000 : ℚ)] := by
  norm_num [Stats.addAll, Stats.add, Stats.fresh]

theorem clamp_sqrt (v : ℝ) (hv : 0 ≤ v) : (if v > 0 then Real.sqrt v else 0) = Real.sqrt v := by
  split
  · rfl
  · have : v = 0 := le_antisymm (not_lt.1 ‹_›) hv
    rw [this, Real.sqrt_zero]

theorem mean_sq_form (xs : List ℝ) :
    meanRef (xs.map (fun x => x ^ 2)) - meanRef xs ^ 2 =
      (xs.map (fun x => x * x)).sum / (xs.length : ℝ) -
        xs.sum / (xs.length : ℝ) * (xs.sum / (xs.length : ℝ)) := by
  have : (fun x : ℝ => x ^ 2) = (fun x : ℝ => x * x) := by
    funext x
    ring
  simp only [meanRef, List.length_map, this]
  ring

/-- C7: standard deviation matches the population formula.  Over the reals,
for every non-empty sequence of fewer than `2^64` samples, the `var` of
`Stats::print` is the population variance `(1/n) * Σ (x_i - mean)^2`, hence not
negative; `stdv` is `sqrt(mean(x^2) - mean(x)^2)` and equals `sqrt(var)`; the
branch that yields 0 is taken only when `var` is exactly 0.  The same holds for
the client's `mean`/`var`/`stdv` over the `iters ≥ 1` samples of its timed
loop. -/
theorem stddev_population (samples : List ℝ) (iters : Int) (dt : Nat → ℝ)
    (hne : samples ≠ []) (hlen : samples.length < 2 ^ 64) (hit : 1 ≤ iters) :
    (((Stats.addAll samples).print Real.sqrt).var = popVarRef samples ∧
      0 ≤ ((Stats.addAll samples).print Real.sqrt).var ∧
      ((Stats.addAll samples).print Real.sqrt).stdv =
        Real.sqrt (meanRef (samples.map (fun x => x ^ 2)) - meanRef samples ^ 2) ∧
      ((Stats.addAll samples).print Real.sqrt).stdv =
        Real.sqrt ((Stats.addAll samples).print Real.sqrt).var ∧
      (¬ ((Stats.addAll samples).print Real.sqrt).var > 0 →
        ((Stats.addAll samples).print Real.sqrt).var = 0)) ∧
    ((client_stats Real.sqrt iters dt).var = popVarRef ((List.range iters.toNat).map dt) ∧
      0 ≤ (client_stats Real.sqrt iters dt).var ∧
      (client_stats Real.sqrt iters dt).stdv =
        Real.sqrt (meanRef (((List.range iters.toNat).map dt).map (fun x => x ^ 2)) -
          meanRef ((List.range iters.toNat).map dt) ^ 2) ∧
      (client_stats Real.sqrt iters dt).stdv = Real.sqrt (client_stats Real.sqrt iters dt).var ∧
      (¬ (client_stats Real.sqrt iters dt).var > 0 →
        (client_stats Real.sqrt iters dt).var = 0)) := by
  constructor
  · obtain ⟨_, hs, hq, hmax1⟩ := addAll_fields samples hne hlen
    have hv : ((Stats.addAll samples).print Real.sqrt).var = popVarRef samples := by
      simp only [Stats.print, hmax1, hs, hq]
      exact var_eq_popVar samples hne
    have h0 : 0 ≤ ((Stats.addAll samples).print Real.sqrt).var := by
      rw [hv]
      exact popVar_nonneg samples
    have hsd : ((Stats.addAll samples).print Real.sqrt).stdv =
        Real.sqrt ((Stats.addAll samples).print Real.sqrt).var := clamp_sqrt _ h0
    refine ⟨hv, h0, ?_, hsd, fun h => le_antisymm (not_lt.1 h) h0⟩
    rw [hsd, hv, mean_sq_form, var_eq_popVar samples hne]
  · have hn : (List.range iters.toNat).length = iters.toNat := List.length_range _
    have hpos : 0 < iters.toNat := by omega
    have hxs : (List.range iters.toNat).map dt ≠ [] := by
      intro h
      have := congrArg List.length h
      simp at this
      omega
    have hcast : (iters : ℝ) = (((List.range iters.toNat).map dt).length : ℝ) := by
      rw [List.length_map, hn]
      have h1 : (iters.toNat : Int) = iters := Int.toNat_of_nonneg (by omega)
      calc (iters : ℝ) = ((iters.toNat : Int) : ℝ) := by rw [h1]
        _ = (iters.toNat : ℝ) := Int.cast_natCast _
    obtain ⟨fs, fq⟩ := client_fold dt (List.range iters.toNat)
      { sum := 0, sumsq := 0, minms := 1000000000, maxms := 0 }
    have hv : (client_stats Real.sqrt iters dt).var =
        popVarRef ((List.range iters.toNat).map dt) := by
      simp only [client_stats, fs, fq, zero_add, hcast]
      exact var_eq_popVar _ hxs
    have h0 : 0 ≤ (client_stats Real.sqrt iters dt).var := by
      rw [hv]
      exact popVar_nonneg _
    have hsd : (client_stats Real.sqrt iters dt).stdv =
        Real.sqrt (client_stats Real.sqrt iters dt).var := clamp_sqrt _ h0
    refine ⟨hv, h0, ?_, hsd, fun h => le_antisymm (not_lt.1 h) h0⟩
    rw [hsd, hv, mean_sq_form, var_eq_popVar _ hxs]

/-- Witness for C7: the samples `[10, 20, 30]`, and a client run of 3 passes. -/
theorem stddev_population_witness :
    ((Stats.addAll [(10 : ℝ), 20, 30]).print Real.sqrt).stdv =
        Real.sqrt ((Stats.addAll [(10 : ℝ), 20, 30]).print Real.sqrt).var ∧
      (client_stats Real.sqrt 3 (fun i => (i : ℝ))).stdv =
        Real.sqrt (client_stats Real.sqrt 3 (fun i => (i : ℝ))).var :=
  have h := stddev_population [(10 : ℝ), 20, 30] 3 (fun i => (i : ℝ)) (by simp)
    (by norm_num) (by norm_num)
  ⟨h.1.2.2.2.1, h.2.2.2.2.1⟩

/-- C10: the `p95` update rule.  With `alpha = 0.05`, `add(ms)` sets `p95` to
`(1-alpha)*p95 + alpha*ms` when `ms > p95` and leaves it unchanged when
`ms ≤ p95`; so `p95` never decreases from one `add` to the next, along any
sequence of samples and from any state. -/
theorem p95_update {α : Type} [LinearOrderedField α] (s : Stats α) (ms : α)
    (pre : List α) :
    (ms > s.p95 → (s.add ms).p95 = (1 - 5 / 100) * s.p95 + 5 / 100 * ms) ∧
    (ms ≤ s.p95 → (s.add ms).p95 = s.p95) ∧
    s.p95 ≤ (s.add ms).p95 ∧
    (Stats.addAll pre).p95 ≤ (Stats.addAll (pre ++ [ms])).p95 ∧
    s.p95 ≤ (pre.foldl Stats.add s).p95 := by
  refine ⟨?_, ?_, add_p95_mono s ms, ?_, foldl_add_p95_mono pre s⟩
  · intro h
    simp [Stats.add, h]
  · intro h
    simp only [Stats.add, if_neg (not_lt.2 h)]
    ring
  · simp only [Stats.addAll, List.foldl_append, List.foldl_cons, List.foldl_nil]
    exact add_p95_mono _ ms

/-- Witness for C10: from `p95 = 0` a sample of 20 ms moves the estimate to 1,
and a following sample of 1/2 ms leaves it there. -/
theorem p95_update_witness :
    ((Stats.fresh : Stats ℚ).add 20).p95 =
        (1 - 5 / 100) * (Stats.fresh : Stats ℚ).p95 + 5 / 100 * 20 ∧
      ((((Stats.fresh : Stats ℚ).add 20).add (1 / 2)).p95 =
        ((Stats.fresh : Stats ℚ).add 20).p95) :=
  ⟨(p95_update (Stats.fresh : Stats ℚ) 20 []).1 (by norm_num [Stats.fresh]),
    (p95_update ((Stats.fresh : Stats ℚ).add 20) (1 / 2) []).2.1
      (by norm_num [Stats.fresh, Stats.add])⟩

/-! ## Command line -/

theorem getElem_mid (pre : List String) (a : String) (rest : List String)
    (h : pre.length < (pre ++ a :: rest).length) : (pre ++ a :: rest)[pre.length] = a := by
  induction pre with
  | nil => rfl
  | cons x xs ih => simpa using ih (by simp)

theorem parse_loop_scan (n : Nat) :
    ∀ (argv0 : String) (pre rest : List String) (cfg : Config), rest.length = n →
      parse_loop (argv0 :: pre ++ rest) (pre.length + 1) cfg = scan_ref argv0 rest cfg := by
  induction n using Nat.strong_induction_on with
  | _ n ih =>
    intro argv0 pre rest cfg hn
    match rest, hn with
    | [], _ =>
      rw [parse_loop]
      simp [scan_ref]
    | [a], hn =>
      rw [parse_loop]
      have hlt : pre.length + 1 < (argv0 :: pre ++ [a]).length := by simp
      have hget : (argv0 :: pre ++ [a])[pre.length + 1] = a := by
        simp [List.getElem_cons_succ]
      simp only [hlt, dite_true, hget]
      have hnot : ¬ (pre.length + 1 + 1 < (argv0 :: pre ++ [a]).length) := by simp
      simp only [hnot, decide_False, Bool.and_false, Bool.false_eq_true, if_false]
      by_cases hh : a = "-h" ∨ a = "--help"
      · have : (a == "-h" || a == "--help") = true := by simpa using hh
        simp [this, scan_ref, hh]
      · have : (a == "-h" || a == "--help") = false := by simpa using hh
        simp only [this, Bool.false_eq_true, if_false, scan_ref, hh]
        have := ih 0 (by rw [← hn]; simp) argv0 (pre ++ [a]) [] cfg rfl
        simpa [scan_ref] using this
    | a :: v :: rest, hn =>
      rw [parse_loop]
      have hlt : pre.length + 1 < (argv0 :: pre ++ a :: v :: rest).length := by simp
      have hget : (argv0 :: pre ++ a :: v :: rest)[pre.length + 1] = a := by
        simp only [List.cons_append, List.getElem_cons_succ]
        exact getElem_mid pre a (v :: rest) (by simp)
      have hlt2 : pre.length + 1 + 1 < (argv0 :: pre ++ a :: v :: rest).length := by simp
      have hget2 : (argv0 :: pre ++ a :: v :: rest).getD (pre.length + 1 + 1) "" = v := by
        have : argv0 :: pre ++ a :: v :: rest = (argv0 :: pre ++ [a]) ++ v :: rest := by simp
        rw [this, List.getD_eq_getElem?_getD, List.getElem?_append_right (by simp)]
        simp
      have hre : argv0 :: pre ++ a :: v :: rest = argv0 :: (pre ++ [a, v]) ++ rest := by simp
      have hre1 : argv0 :: pre ++ a :: v :: rest = argv0 :: (pre ++ [a]) ++ v :: rest := by simp
      have hl2 : pre.length + 1 + 2 = (pre ++ [a, v]).length + 1 := by simp
      have hl1 : pre.length + 1 + 1 = (pre ++ [a]).length + 1 := by simp
      have hr : rest.length < n := by rw [← hn]; simp only [List.length_cons]; omega
      have hr1 : (v :: rest).length < n := by rw [← hn]; simp only [List.length_cons]; omega
      simp only [hlt, dite_true, hget, hlt2, decide_True, Bool.and_true, hget2]
      by_cases he : a = "-e" ∨ a = "--engine"
      · have : (a == "-e" || a == "--engine") = true := by simpa using he
        simp only [this, if_true, scan_ref, he]
        rw [hl2, hre]
        exact ih _ hr argv0 _ rest _ rfl
      · have h1 : (a == "-e" || a == "--engine") = false := by simpa using he
        simp only [h1, Bool.false_eq_true, if_false, scan_ref, he]
        by_cases hs : a = "-s" ∨ a = "--sock"
        · have : (a == "-s" || a == "--sock") = true := by simpa using hs
          simp only [this, if_true, hs]
          rw [hl2, hre]
          exact ih _ hr argv0 _ rest _ rfl
        · have h2 : (a == "-s" || a == "--sock") = false := by simpa using hs
          simp only [h2, Bool.false_eq_true, if_false, hs]
          by_cases hh : a = "-h" ∨ a = "--help"
          · have : (a == "-h" || a == "--help") = true := by simpa using hh
            simp [this, hh]
          · have h3 : (a == "-h" || a == "--help") = false := by simpa using hh
            simp only [h3, Bool.false_eq_true, if_false, hh]
            rw [hl1, hre1]
            exact ih _ hr1 argv0 _ (v :: rest) _ rfl

theorem scan_ref_plain (argv0 : String) :
    ∀ (args : List String) (cfg : Config), (∀ a ∈ args, recognised a = false) →
      scan_ref argv0 args cfg = Parsed.cfg cfg
  | [], cfg, _ => by simp [scan_ref]
  | [a], cfg, h => by
    have ha := h a (by simp)
    simp only [recognised, Bool.or_eq_false_iff, beq_eq_false_iff_ne, ne_eq] at ha
    simp [scan_ref, ha]
  | a :: v :: rest, cfg, h => by
    have ha := h a (by simp)
    simp only [recognised, Bool.or_eq_false_iff, beq_eq_false_iff_ne, ne_eq] at ha
    have ih := scan_ref_plain argv0 (v :: rest) cfg (fun x hx => h x (List.mem_cons_of_mem _ hx))
    simp [scan_ref, ha, ih]

/-- C9: daemon command line.  `parse_args` equals the reference left-to-right
scan of the tokens after `argv[0]`; when no token is one of the six recognised
spellings it returns the default `Config` without exiting; and for all strings
`p`, `q` the arguments `-e p -s q` give `Config` with `engine = p`,
`sock = q`. -/
theorem parse_args_scan (argv0 : String) (args : List String) (p q : String) :
    parse_args (argv0 :: args) = scan_ref argv0 args {} ∧
    ((∀ a ∈ args, recognised a = false) →
      parse_args (argv0 :: args) =
        Parsed.cfg { engine := "model/resnet50_fp32.plan", sock := "/run/trt.sock" }) ∧
    parse_args [argv0, "-e", p, "-s", q] = Parsed.cfg { engine := p, sock := q } := by
  have hscan : ∀ xs : List String, parse_args (argv0 :: xs) = scan_ref argv0 xs {} := by
    intro xs
    exact parse_loop_scan xs.length argv0 [] xs {} rfl
  refine ⟨hscan args, ?_, ?_⟩
  · intro h
    rw [hscan, scan_ref_plain argv0 args {} h]
  · rw [hscan]
    simp [scan_ref]

/-- Witness for C9: two unrecognised tokens leave the defaults in place. -/
theorem parse_args_scan_witness :
    parse_args ("trt_daemon" :: ["--verbose", "x"]) =
      Parsed.cfg { engine := "model/resnet50_fp32.plan", sock := "/run/trt.sock" } :=
  (parse_args_scan "trt_daemon" ["--verbose", "x"] "" "").2.1 (by decide)

end TrtDaemon
